import Mathlib

/-!
Shallow embedding of the `noxcollections` library (modules `lists.py` and
`tree.py`) together with proofs settling the frozen claims about its
specification.

Conventions:
- Python integers are `Int`; element values are kept generic or fixed to `Int`
  where a concrete order is needed.
- A fallible Python call is an `Except PyError` value.
- The mutation of a linked chain of `_LinkedListNode` objects is modelled by
  returning the new chain of values; where node identity matters the nodes
  carry an allocation tag (`Nat`) and fresh allocations use tags from a
  supplied allocation counter upwards.
- The mutation of the reference-linked tree nodes of `tree.py` is modelled by
  an explicit heap: a finite association list from node ids to node records
  carrying `value/left/right/parent`, plus the `root` id and the allocation
  counter.  Python `while` loops over the heap become fuel-indexed recursions;
  the fuel supplied is always sufficient for the concrete runs evaluated here.
-/

/-- The Python exception kinds raised by the embedded code. -/
inductive PyError where
  | indexError
  | valueError
  | stopIteration
  | keyError
deriving DecidableEq

namespace PyList

/-- `_nth(index, iterable)` from `lists.py`: `next(islice(iterable, index, None))`.
`itertools.islice` rejects a negative `index` with `ValueError` before any
iteration; an `index` at or past the end of the iterable makes `next` raise
`StopIteration`, which `_nth` converts to `IndexError`. -/
def nth (l : List α) (index : Int) : Except PyError α :=
  if index < 0 then .error .valueError
  else
    match l.get? index.toNat with
    | some v => .ok v
    | none => .error .indexError

/-- `_normalize_index(index, len_source)` from `lists.py`: a negative index is
translated to `length - abs(index)`; the translated index must lie in
`[0, length)`, otherwise `IndexError` is raised. -/
def normalize_index (index : Int) (length : Nat) : Except PyError Nat :=
  let translated : Int := if 0 ≤ index then index else (length : Int) - index.natAbs
  if translated < 0 ∨ (length : Int) ≤ translated then .error .indexError
  else .ok translated.toNat

/-- `_LinkedListAbstractBase._get_by_index`: `_nth(_normalize_index(index, self), iter(self))`. -/
def get_by_index (l : List α) (index : Int) : Except PyError α :=
  match normalize_index index l.length with
  | .error e => .error e
  | .ok i => nth l (i : Int)

/-- `_LinkedListAbstractBase._set_by_index`: fetch the node at the normalized
index with `_nth` and overwrite its `value` field. -/
def set_by_index (l : List α) (index : Int) (v : α) : Except PyError (List α) :=
  match normalize_index index l.length with
  | .error e => .error e
  | .ok i =>
    match nth l (i : Int) with
    | .error e => .error e
    | .ok _ => .ok (l.set i v)

/-- `LinkedList._del_by_index`: normalize the index; index 0 rebinds the head
to `head.next`; otherwise the node before the target is found with `_nth` and
the target is spliced out (`prev.next = to_remove.next`). -/
def del_by_index (l : List α) (key : Int) : Except PyError (List α) :=
  match normalize_index key l.length with
  | .error e => .error e
  | .ok k =>
    if k = 0 then .ok l.tail
    else
      match nth l ((k : Int) - 1) with
      | .error e => .error e
      | .ok _ => .ok (l.take k ++ l.drop (k + 1))

/-- The `MutableSequence.pop` mixin used by `LinkedList` (Python standard
library, consumed by the source): `v = self[index]; del self[index]; return v`,
with `self[...]` and `del self[...]` the methods embedded above. -/
def pop (l : List α) (index : Int) : Except PyError (α × List α) :=
  match get_by_index l index with
  | .error e => .error e
  | .ok v =>
    match del_by_index l index with
    | .error e => .error e
    | .ok l' => .ok (v, l')

/-- `LinkedList.insert(index, obj)`: index 0 pushes a new head node; otherwise
the node at position `index - 1` is fetched with `_nth` (so a negative index
reaches `islice` and raises `ValueError`, and an index whose predecessor
position is past the last node raises `IndexError`) and the new node is
spliced in after it. -/
def insert (l : List α) (index : Int) (obj : α) : Except PyError (List α) :=
  if index = 0 then .ok (obj :: l)
  else
    match nth l (index - 1) with
    | .error e => .error e
    | .ok _ => .ok (l.take index.toNat ++ obj :: l.drop index.toNat)

end PyList

/-- Claim C4, counterexample: for the one-element `LinkedList([10])`,
`insert(1, 99)` — inserting exactly at `index == length` — does not raise: it
appends, producing `[10, 99]`.  The claim asserts it raises an index error. -/
theorem c4_insert_at_length_counterexample :
    PyList.insert [10] 1 (99 : Int) = .ok [10, 99] := rfl

/-- Claim C4 (amended): for every `LinkedList` of length `n >= 1`,
`insert(n, v)` appends `v` at the end (it does not raise); an index error is
raised exactly for indexes strictly greater than the length. -/
theorem c4_insert_at_length_appends (l : List Int) (v : Int) :
    (1 ≤ l.length → PyList.insert l (l.length : Int) v = .ok (l ++ [v])) ∧
    (∀ i : Int, (l.length : Int) < i → PyList.insert l i v = .error .indexError) := by
  constructor
  · intro h
    have hne : (l.length : Int) ≠ 0 := by
      simp only [ne_eq, Int.natCast_eq_zero]
      omega
    have hpos : ¬ ((l.length : Int) - 1 < 0) := by omega
    have htn : ((l.length : Int) - 1).toNat = l.length - 1 := by omega
    have hlt : l.length - 1 < l.length := by omega
    simp only [PyList.insert, if_neg hne, PyList.nth, if_neg hpos, htn,
      List.get?_eq_get hlt, Int.toNat_natCast, List.take_length, List.drop_length]
  · intro i hi
    have hne : i ≠ 0 := by omega
    have hpos : ¬ (i - 1 < 0) := by omega
    have hnone : l.get? (i - 1).toNat = none := by
      apply List.get?_eq_none.2
      omega
    simp only [PyList.insert, if_neg hne, PyList.nth, if_neg hpos, hnone]

/-- Witness for the amended claim C4 at `LinkedList([7, 8])`. -/
theorem c4_insert_at_length_appends_witness :
    PyList.insert [7, 8] 2 (9 : Int) = .ok [7, 8, 9] ∧
    PyList.insert [7, 8] 5 (9 : Int) = .error .indexError := by
  refine ⟨?_, ?_⟩
  · have h := (c4_insert_at_length_appends [7, 8] 9).1 (by decide)
    simpa using h
  · have h := (c4_insert_at_length_appends [7, 8] 9).2 5 (by decide)
    simpa using h

/-- Claim C5: on `LinkedList([10, 20])`, `insert(-1, 99)` does not insert at
the head — `_nth` hands the negative position `-2` to `itertools.islice`,
which raises `ValueError`.  This contradicts the claim (and the docstring of
`LinkedList.insert`, which promises head insertion for negative indexes). -/
theorem c5_negative_insert_raises_value_error :
    PyList.insert [10, 20] (-1) (99 : Int) = .error .valueError := rfl

/-- Claim C10: `normalize_index(i, n)` resolves `i` in `[-n, -1]` to `n + i`
and `i` in `[0, n)` to itself, and raises `IndexError` exactly when the
resolved value is `< 0` or `>= n` (so `i == n` is always invalid); on an empty
sequence `get`, `set`, `delete` and `pop` therefore always fail with
`IndexError`. -/
theorem c10_normalize_index_spec :
    (∀ (i : Int) (n : Nat), -(n : Int) ≤ i → i ≤ -1 →
        PyList.normalize_index i n = .ok ((n : Int) + i).toNat) ∧
    (∀ (i : Int) (n : Nat), 0 ≤ i → i < (n : Int) →
        PyList.normalize_index i n = .ok i.toNat) ∧
    (∀ (i : Int) (n : Nat),
        PyList.normalize_index i n = .error .indexError ↔
          ((if 0 ≤ i then i else (n : Int) + i) < 0 ∨
            (n : Int) ≤ (if 0 ≤ i then i else (n : Int) + i))) ∧
    (∀ n : Nat, PyList.normalize_index (n : Int) n = .error .indexError) ∧
    (∀ i : Int,
        PyList.get_by_index ([] : List Int) i = .error .indexError ∧
        PyList.set_by_index ([] : List Int) i 0 = .error .indexError ∧
        PyList.del_by_index ([] : List Int) i = .error .indexError ∧
        PyList.pop ([] : List Int) i = .error .indexError) := by
  have hkey : ∀ (i : Int) (n : Nat),
      (if 0 ≤ i then i else (n : Int) - i.natAbs) =
        (if 0 ≤ i then i else (n : Int) + i) := by
    intro i n
    split
    · rfl
    · omega
  have herr : ∀ (i : Int) (n : Nat),
      PyList.normalize_index i n = .error .indexError ↔
        ((if 0 ≤ i then i else (n : Int) + i) < 0 ∨
          (n : Int) ≤ (if 0 ≤ i then i else (n : Int) + i)) := by
    intro i n
    by_cases h0 : 0 ≤ i
    · simp only [PyList.normalize_index, hkey, if_pos h0]
      split
      next hcond => exact iff_of_true rfl hcond
      next hcond => exact iff_of_false (by simp) hcond
    · simp only [PyList.normalize_index, hkey, if_neg h0]
      split
      next hcond => exact iff_of_true rfl hcond
      next hcond => exact iff_of_false (by simp) hcond
  refine ⟨?_, ?_, herr, ?_, ?_⟩
  · intro i n h1 h2
    have hlt : ¬ (0 ≤ i) := by omega
    have hcond : ¬ (((n : Int) - i.natAbs) < 0 ∨ (n : Int) ≤ (n : Int) - i.natAbs) := by
      omega
    simp only [PyList.normalize_index, if_neg hlt, if_neg hcond, Except.ok.injEq]
    omega
  · intro i n h1 h2
    have hcond : ¬ (i < 0 ∨ (n : Int) ≤ i) := by omega
    simp only [PyList.normalize_index, if_pos h1, if_neg hcond]
  · intro n
    rw [herr]
    simp
  · intro i
    have h0 : PyList.normalize_index i 0 = .error .indexError := by
      rw [herr]
      omega
    refine ⟨?_, ?_, ?_, ?_⟩
    · simp only [PyList.get_by_index, List.length_nil, h0]
    · simp only [PyList.set_by_index, List.length_nil, h0]
    · simp only [PyList.del_by_index, List.length_nil, h0]
    · simp only [PyList.pop, PyList.get_by_index, List.length_nil, h0]

/-- Witness for claim C10 at concrete indexes against length 5 and the empty
sequence. -/
theorem c10_normalize_index_spec_witness :
    PyList.normalize_index (-2) 5 = .ok 3 ∧
    PyList.normalize_index 2 5 = .ok 2 ∧
    PyList.normalize_index 5 5 = .error .indexError ∧
    PyList.pop ([] : List Int) (-1) = .error .indexError := by
  refine ⟨?_, ?_, ?_, ?_⟩
  · have h := c10_normalize_index_spec.1 (-2) 5 (by decide) (by decide)
    simpa using h
  · have h := c10_normalize_index_spec.2.1 2 5 (by decide) (by decide)
    simpa using h
  · exact c10_normalize_index_spec.2.2.2.1 5
  · exact (c10_normalize_index_spec.2.2.2.2 (-1)).2.2.2

namespace PyList

/-- A Python `slice(start, stop, step)` literal; `none` is Python `None`. -/
structure PySlice where
  start? : Option Int
  stop? : Option Int
  step? : Option Int
deriving DecidableEq

/-- Clamping of one slice endpoint as in CPython `slice.indices(length)`
(used by the source through `range(length)[slice_]` in `_indexes_for_slice`
and `slice_.indices(length)` in `_normalize_slice`). -/
def sliceBound (n : Nat) (lower upper : Int) (v : Option Int) (dflt : Int) : Int :=
  match v with
  | none => dflt
  | some s => if s < 0 then max (s + n) lower else min s upper

/-- An omitted `step` is `1`; `step == 0` raises `ValueError` in Python and is
excluded by the claims. -/
def sliceStep (sl : PySlice) : Int :=
  sl.step?.getD 1

def sliceLower (sl : PySlice) : Int :=
  if 0 < sliceStep sl then 0 else -1

def sliceUpper (sl : PySlice) (n : Nat) : Int :=
  if 0 < sliceStep sl then n else (n : Int) - 1

def sliceStart (sl : PySlice) (n : Nat) : Int :=
  sliceBound n (sliceLower sl) (sliceUpper sl n) sl.start?
    (if 0 < sliceStep sl then sliceLower sl else sliceUpper sl n)

def sliceStop (sl : PySlice) (n : Nat) : Int :=
  sliceBound n (sliceLower sl) (sliceUpper sl n) sl.stop?
    (if 0 < sliceStep sl then sliceUpper sl n else sliceLower sl)

/-- The number of indices a resolved slice addresses (`len(range(length)[sl])`). -/
def sliceCount (start stop step : Int) : Nat :=
  if 0 < step then
    if start < stop then (stop - start - 1).toNat / step.toNat + 1 else 0
  else
    if stop < start then (start - stop - 1).toNat / (-step).toNat + 1 else 0

/-- `_indexes_for_slice(slice_, len_source)` from `lists.py`:
`range(len_source)[slice_]`, the ordered absolute indices a slice addresses. -/
def indexes_for_slice (sl : PySlice) (n : Nat) : List Nat :=
  (List.range (sliceCount (sliceStart sl n) (sliceStop sl n) (sliceStep sl))).map
    (fun j : Nat => (sliceStart sl n + (j : Int) * sliceStep sl).toNat)

end PyList

namespace PyList

theorem sliceBound_mem (n : Nat) (lower upper dflt : Int) (v : Option Int)
    (h1 : lower ≤ 0) (h2 : (n : Int) - 1 ≤ upper) (h3 : lower ≤ dflt)
    (h4 : dflt ≤ upper) :
    lower ≤ sliceBound n lower upper v dflt ∧ sliceBound n lower upper v dflt ≤ upper := by
  match v with
  | none => exact ⟨h3, h4⟩
  | some s =>
    simp only [sliceBound]
    split
    next hs =>
      refine ⟨le_max_right _ _, ?_⟩
      rw [max_le_iff]
      omega
    next hs =>
      refine ⟨?_, min_le_right _ _⟩
      rw [le_min_iff]
      omega

/-- Every index produced by `_indexes_for_slice` is a valid position of the
addressed sequence. -/
theorem slice_index_bounds (sl : PySlice) (n : Nat) (j : Nat)
    (hj : j < sliceCount (sliceStart sl n) (sliceStop sl n) (sliceStep sl)) :
    0 ≤ sliceStart sl n + j * sliceStep sl ∧
      sliceStart sl n + (j : Int) * sliceStep sl < n := by
  rcases lt_or_le 0 (sliceStep sl) with hpos | hneg
  · have hlow : sliceLower sl = 0 := if_pos hpos
    have hup : sliceUpper sl n = (n : Int) := if_pos hpos
    have hstart : 0 ≤ sliceStart sl n ∧ sliceStart sl n ≤ (n : Int) := by
      have h := sliceBound_mem n 0 (n : Int) 0 sl.start? le_rfl (by omega) le_rfl
        (by exact_mod_cast Nat.zero_le n)
      simpa [sliceStart, hlow, hup, if_pos hpos] using h
    have hstop : 0 ≤ sliceStop sl n ∧ sliceStop sl n ≤ (n : Int) := by
      have h := sliceBound_mem n 0 (n : Int) (n : Int) sl.stop? le_rfl (by omega)
        (by exact_mod_cast Nat.zero_le n) le_rfl
      simpa [sliceStop, hlow, hup, if_pos hpos] using h
    by_cases hss : sliceStart sl n < sliceStop sl n
    · simp only [sliceCount, if_pos hpos, if_pos hss] at hj
      have hjD : j ≤ (sliceStop sl n - sliceStart sl n - 1).toNat / (sliceStep sl).toNat := by
        omega
      have hD : j * (sliceStep sl).toNat ≤ (sliceStop sl n - sliceStart sl n - 1).toNat :=
        le_trans (Nat.mul_le_mul_right _ hjD) (Nat.div_mul_le_self _ _)
      have hcast : (j : Int) * sliceStep sl ≤ sliceStop sl n - sliceStart sl n - 1 := by
        have h := Int.ofNat_le.2 hD
        push_cast at h
        rw [Int.toNat_of_nonneg (by omega), Int.toNat_of_nonneg (by omega)] at h
        exact h
      have hnn : 0 ≤ (j : Int) * sliceStep sl :=
        mul_nonneg (Int.natCast_nonneg j) (le_of_lt hpos)
      constructor <;> omega
    · simp only [sliceCount, if_pos hpos, if_neg hss] at hj
      omega
  · have hneg' : sliceStep sl < 0 ∨ sliceStep sl = 0 := by omega
    have hnpos : ¬ (0 < sliceStep sl) := by omega
    have hlow : sliceLower sl = -1 := if_neg hnpos
    have hup : sliceUpper sl n = (n : Int) - 1 := if_neg hnpos
    have hstart : -1 ≤ sliceStart sl n ∧ sliceStart sl n ≤ (n : Int) - 1 := by
      have h := sliceBound_mem n (-1) ((n : Int) - 1) ((n : Int) - 1) sl.start?
        (by omega) (by omega) (by omega) le_rfl
      simpa [sliceStart, hlow, hup, if_neg hnpos] using h
    have hstop : -1 ≤ sliceStop sl n ∧ sliceStop sl n ≤ (n : Int) - 1 := by
      have h := sliceBound_mem n (-1) ((n : Int) - 1) (-1) sl.stop?
        (by omega) (by omega) le_rfl (by omega)
      simpa [sliceStop, hlow, hup, if_neg hnpos] using h
    by_cases hss : sliceStop sl n < sliceStart sl n
    · simp only [sliceCount, if_neg hnpos, if_pos hss] at hj
      have hjD : j ≤ (sliceStart sl n - sliceStop sl n - 1).toNat / (-sliceStep sl).toNat := by
        omega
      have hD : j * (-sliceStep sl).toNat ≤ (sliceStart sl n - sliceStop sl n - 1).toNat :=
        le_trans (Nat.mul_le_mul_right _ hjD) (Nat.div_mul_le_self _ _)
      have hcast : (j : Int) * (-sliceStep sl) ≤ sliceStart sl n - sliceStop sl n - 1 := by
        have h := Int.ofNat_le.2 hD
        push_cast at h
        rw [Int.toNat_of_nonneg (by omega), Int.toNat_of_nonneg (by omega)] at h
        exact h
      rw [mul_neg] at hcast
      have hnp : (j : Int) * sliceStep sl ≤ 0 := by
        rcases Nat.eq_zero_or_pos j with hj0 | hj0
        · simp [hj0]
        · have : sliceStep sl ≤ 0 := by omega
          exact mul_nonpos_iff.2 (Or.inl ⟨Int.natCast_nonneg j, this⟩)
      constructor <;> omega
    · simp only [sliceCount, if_neg hnpos, if_neg hss] at hj
      omega

theorem indexes_for_slice_lt (sl : PySlice) (n : Nat) :
    ∀ i ∈ indexes_for_slice sl n, i < n := by
  intro i hi
  rw [indexes_for_slice, List.mem_map] at hi
  rcases hi with ⟨j, hj, rfl⟩
  rw [List.mem_range] at hj
  have h := slice_index_bounds sl n j hj
  omega

end PyList

namespace PyList

/-- The loop body of `_LinkedListAbstractBase._set_by_slice`: for each node
addressed by the slice (in slice order) assign `next(values_iter)` to its
`value`.  When the values iterator is exhausted, `next` raises
`StopIteration` out of the method; the assignments already made persist.  The
returned flag records whether the call raised. -/
def set_slice_go : List α → List Nat → List α → List α × Bool
  | l, [], _ => (l, false)
  | l, _ :: _, [] => (l, true)
  | l, i :: is, v :: vs => set_slice_go (l.set i v) is vs

/-- `_LinkedListAbstractBase._set_by_slice(slice_, values)`; a zero step makes
`range(length)[slice_]` raise `ValueError` before any node is touched. -/
def set_by_slice (l : List α) (sl : PySlice) (values : List α) : List α × Bool :=
  if sliceStep sl = 0 then (l, true)
  else set_slice_go l (indexes_for_slice sl l.length) values

theorem set_slice_go_spec (is : List Nat) (vs l : List α) :
    (set_slice_go l is vs).1 =
      ((is.zip vs).foldl (fun acc p => acc.set p.1 p.2) l) ∧
    ((set_slice_go l is vs).2 = true ↔ vs.length < is.length) := by
  induction is generalizing vs l with
  | nil => simp [set_slice_go]
  | cons i is ih =>
    match vs with
    | [] => simp [set_slice_go]
    | v :: vs =>
      rcases ih vs (l.set i v) with ⟨h1, h2⟩
      refine ⟨?_, ?_⟩
      · simpa [set_slice_go] using h1
      · simpa [set_slice_go, Nat.succ_lt_succ_iff] using h2

/-- Claim C6, counterexample: `LinkedList([1, 2, 3])[:] = [9]` — a values
iterable shorter than the three addressed positions — writes `9` into the
first position and then raises (`StopIteration` escapes the loop), so the
call does not complete without an error as the claim states.  The first
component is the final chain, the second flag records that the call raised. -/
theorem c6_short_values_counterexample :
    set_by_slice [1, 2, 3] ⟨none, none, none⟩ ([9] : List Int) = ([9, 2, 3], true) := rfl

/-- Claim C6 (amended): for a nonzero-step slice, `set_slice` writes the
available values positionally in the slice's order, leaves the remaining
addressed positions unchanged — the final chain is exactly the fold of
positional writes over `zip(indexes, values)` — but it completes without
raising only when `values` covers every addressed position: when `values` is
strictly shorter, the partial writes persist and `StopIteration` is raised. -/
theorem c6_set_slice_partial_write (l : List Int) (sl : PySlice) (vs : List Int)
    (hstep : sliceStep sl ≠ 0) :
    (set_by_slice l sl vs).1 =
      (((indexes_for_slice sl l.length).zip vs).foldl (fun acc p => acc.set p.1 p.2) l) ∧
    ((set_by_slice l sl vs).2 = true ↔
      vs.length < (indexes_for_slice sl l.length).length) := by
  rw [set_by_slice, if_neg hstep]
  exact set_slice_go_spec _ _ _

/-- Witness for the amended claim C6: writing two values over the
even-position slice of a five-element chain. -/
theorem c6_set_slice_partial_write_witness :
    (set_by_slice [1, 2, 3, 4, 5] ⟨none, none, some 2⟩ ([7, 8] : List Int)).1 =
      ((indexes_for_slice ⟨none, none, some 2⟩ 5).zip ([7, 8] : List Int)).foldl
        (fun acc p => acc.set p.1 p.2) [1, 2, 3, 4, 5] ∧
    ((set_by_slice [1, 2, 3, 4, 5] ⟨none, none, some 2⟩ ([7, 8] : List Int)).2 = true ↔
      ([7, 8] : List Int).length < (indexes_for_slice ⟨none, none, some 2⟩ 5).length) := by
  have h := c6_set_slice_partial_write [1, 2, 3, 4, 5] ⟨none, none, some 2⟩ [7, 8]
    (by decide)
  simpa using h

end PyList

namespace PyList

/-- Fetch the values of the nodes addressed by the slice, in slice order:
`(e.value for e in self._iter_nodes_by_slice(slice_))`, each node found by a
fresh `_nth` traversal from the head. -/
def collect_values : List α → List Nat → Except PyError (List α)
  | _, [] => .ok []
  | l, i :: is =>
    match l.get? i with
    | none => .error .indexError
    | some v =>
      match collect_values l is with
      | .error e => .error e
      | .ok vs => .ok (v :: vs)

/-- The node construction done by `self.__class__(values)` (constructor →
`extend`): one freshly allocated `_LinkedListNode` per value, in order.  Node
identity is modelled by the allocation tag: new nodes receive the tags
`fresh`, `fresh + 1`, ... -/
def make_nodes (fresh : Nat) : List α → List (Nat × α)
  | [] => []
  | v :: vs => (fresh, v) :: make_nodes (fresh + 1) vs

/-- `_LinkedListAbstractBase._get_by_slice(slice_)`: a new same-type sequence
built from the values of the nodes addressed by the slice.  The result pairs
the (untouched) source chain with the newly built chain; source nodes carry
tags below `fresh`, the new nodes are allocated from `fresh` upwards. -/
def get_by_slice (fresh : Nat) (s : List (Nat × α)) (sl : PySlice) :
    Except PyError (List (Nat × α) × List (Nat × α)) :=
  if sliceStep sl = 0 then .error .valueError
  else
    match collect_values (s.map Prod.snd) (indexes_for_slice sl s.length) with
    | .error e => .error e
    | .ok vs => .ok (s, make_nodes fresh vs)

theorem collect_values_ok (l : List α) (d : α) (is : List Nat)
    (h : ∀ i ∈ is, i < l.length) :
    collect_values l is = .ok (is.map (fun i => l.getD i d)) := by
  induction is with
  | nil => rfl
  | cons i is ih =>
    have hi : i < l.length := h i (List.mem_cons_self i is)
    have hrest : ∀ j ∈ is, j < l.length := fun j hj => h j (List.mem_cons_of_mem i hj)
    have hget : l.get? i = some (l.getD i d) := by
      rw [List.get?_eq_getElem?, List.getElem?_eq_getElem hi, List.getD_eq_getElem l d hi]
    simp only [collect_values, hget, ih hrest, List.map_cons]

theorem make_nodes_values (fresh : Nat) (vs : List α) :
    (make_nodes fresh vs).map Prod.snd = vs := by
  induction vs generalizing fresh with
  | nil => rfl
  | cons v vs ih => simp [make_nodes, ih]

theorem make_nodes_tags (fresh : Nat) (vs : List α) :
    ∀ p ∈ make_nodes fresh vs, fresh ≤ p.1 := by
  induction vs generalizing fresh with
  | nil => simp [make_nodes]
  | cons v vs ih =>
    intro p hp
    rcases List.mem_cons.1 hp with rfl | hp
    · exact le_refl _
    · exact le_trans (Nat.le_succ _) (ih (fresh + 1) p hp)

/-- Claim C9: for every linked chain and every slice with nonzero step,
`get_slice` succeeds and returns, alongside the unchanged source, a new chain
whose values are exactly the source's values at the indices of
`range(n)[start:stop:step]` in that order, and whose nodes are all freshly
allocated — no node is shared with the source. -/
theorem c9_get_slice_spec (s : List (Nat × Int)) (sl : PySlice) (fresh : Nat)
    (hstep : sliceStep sl ≠ 0) (hfresh : ∀ p ∈ s, p.1 < fresh) :
    ∃ res,
      get_by_slice fresh s sl = .ok (s, res) ∧
      res.map Prod.snd =
        (indexes_for_slice sl s.length).map (fun i => (s.map Prod.snd).getD i 0) ∧
      (∀ p ∈ res, ∀ q ∈ s, p.1 ≠ q.1) := by
  have hvalid : ∀ i ∈ indexes_for_slice sl s.length, i < (s.map Prod.snd).length := by
    intro i hi
    rw [List.length_map]
    exact indexes_for_slice_lt sl s.length i hi
  have hc := collect_values_ok (s.map Prod.snd) 0 (indexes_for_slice sl s.length) hvalid
  refine ⟨make_nodes fresh ((indexes_for_slice sl s.length).map
    (fun i => (s.map Prod.snd).getD i 0)), ?_, ?_, ?_⟩
  · rw [get_by_slice, if_neg hstep, hc]
  · exact make_nodes_values _ _
  · intro p hp q hq
    have h1 : fresh ≤ p.1 := make_nodes_tags _ _ p hp
    have h2 : q.1 < fresh := hfresh q hq
    omega

/-- Witness for claim C9: reversing a three-node chain with the slice
`[::-1]`. -/
theorem c9_get_slice_spec_witness :
    ∃ res,
      get_by_slice 3 [(0, 10), (1, 20), (2, 30)] ⟨none, none, some (-1)⟩ =
        .ok ([(0, 10), (1, 20), (2, 30)], res) ∧
      res.map Prod.snd =
        (indexes_for_slice ⟨none, none, some (-1)⟩
            ([(0, 10), (1, 20), (2, 30)] : List (Nat × Int)).length).map
          (fun i => (([(0, 10), (1, 20), (2, 30)] : List (Nat × Int)).map Prod.snd).getD i 0) ∧
      (∀ p ∈ res, ∀ q ∈ ([(0, 10), (1, 20), (2, 30)] : List (Nat × Int)), p.1 ≠ q.1) :=
  c9_get_slice_spec [(0, 10), (1, 20), (2, 30)] ⟨none, none, some (-1)⟩ 3
    (by decide) (by decide)

end PyList

namespace PyTree

/-- A value-level view of a subtree of `BinaryTreeNode`s from `tree.py`:
`nil` is Python `None`. -/
inductive BTree where
  | nil : BTree
  | node (value : Int) (left right : BTree) : BTree
deriving DecidableEq

/-- Weight justifying termination of the worklist traversals below. -/
def treeWeight : BTree → Nat
  | .nil => 1
  | .node _ l r => 1 + treeWeight l + treeWeight r

def queueWeight : List BTree → Nat
  | [] => 0
  | t :: q => treeWeight t + queueWeight q

theorem queueWeight_append (a b : List BTree) :
    queueWeight (a ++ b) = queueWeight a + queueWeight b := by
  induction a with
  | nil => simp [queueWeight]
  | cons t ts ih =>
    simp [queueWeight, ih]
    omega

/-- `BinaryTreeNodeABC.traverse_bfs` composed with `values_bfs`: the source
deque is popped from the right and the non-`None` children are pushed with
`extendleft`, so it behaves as a FIFO queue with the left child ahead of the
right; the worklist here is that deque reversed (pop from the head, append
children at the tail).  A `None` child is skipped when dequeued, which yields
the same sequence as the source's filter at enqueue time. -/
def values_bfs : List BTree → List Int
  | [] => []
  | .nil :: rest => values_bfs rest
  | .node v l r :: rest => v :: values_bfs (rest ++ [l, r])
termination_by q => queueWeight q
decreasing_by
  all_goals simp [queueWeight, queueWeight_append, treeWeight]
  all_goals omega

/-- `BinaryTreeNodeABC.traverse_dfs_preorder` composed with
`values_dfs_preorder`: the source deque is popped from the right and
`children[::-1]` (right then left, `None` filtered) is pushed with `extend`,
so the left child is popped first; the worklist here is that stack with the
top at the head. -/
def values_dfs_preorder : List BTree → List Int
  | [] => []
  | .nil :: rest => values_dfs_preorder rest
  | .node v l r :: rest => v :: values_dfs_preorder (l :: r :: rest)
termination_by q => queueWeight q
decreasing_by
  all_goals simp [queueWeight, queueWeight_append, treeWeight]
  all_goals omega

/-- The 7-node balanced fixture `0{1{3,4},2{5,6}}` of the spec and tests. -/
def balanced_tree : BTree :=
  .node 0 (.node 1 (.node 3 .nil .nil) (.node 4 .nil .nil))
    (.node 2 (.node 5 .nil .nil) (.node 6 .nil .nil))

/-- The right-only degenerate chain `0→1→2→3→4→5→6`. -/
def chain_tree : BTree :=
  .node 0 .nil (.node 1 .nil (.node 2 .nil (.node 3 .nil (.node 4 .nil
    (.node 5 .nil (.node 6 .nil .nil))))))

end PyTree

/-- Claim C8: on the balanced 7-node tree the BFS traversal yields
`[0,1,2,3,4,5,6]` and the DFS-preorder traversal yields `[0,1,3,4,2,5,6]`;
on the right-only chain both yield `[0,1,2,3,4,5,6]`. -/
theorem c8_traversal_orders :
    PyTree.values_bfs [PyTree.balanced_tree] = [0, 1, 2, 3, 4, 5, 6] ∧
    PyTree.values_dfs_preorder [PyTree.balanced_tree] = [0, 1, 3, 4, 2, 5, 6] ∧
    PyTree.values_bfs [PyTree.chain_tree] = [0, 1, 2, 3, 4, 5, 6] ∧
    PyTree.values_dfs_preorder [PyTree.chain_tree] = [0, 1, 2, 3, 4, 5, 6] := by
  refine ⟨?_, ?_, ?_, ?_⟩ <;>
    simp [PyTree.values_bfs, PyTree.values_dfs_preorder, PyTree.balanced_tree,
      PyTree.chain_tree]

namespace PyTree

/-- `BstReferenceTree.add(value)` expressed as a recursion on the subtree.
The source first runs `_find_node_and_parent(value)`: starting at the root it
stops at the first node whose `value` compares equal, or at a `None` link,
descending left exactly when `value < node.value`; it returns the node (or
`None`) and the last parent visited.  `add` then creates a fresh leaf
`BinaryTreeNode(value)` and assigns it to `parent.left` if
`value < parent.value` else to `parent.right` — i.e. to the very link the
descent last followed — or to `self._root` when `parent` is `None`.  Hence:
reaching a `None` link attaches the fresh leaf there; reaching a node with an
equal value overwrites the link leading to that node, so the fresh leaf
replaces that node together with its entire subtree. -/
def bst_add : BTree → Int → BTree
  | .nil, v => .node v .nil .nil
  | .node w l r, v =>
    if v = w then .node v .nil .nil
    else if v < w then .node w (bst_add l v) r
    else .node w l (bst_add r v)

/-- `BstReferenceTree.__contains__` (inherited wrapper around the overridden
`_find_node_and_parent`): the descent of `_find_node_and_parent` finds a node
whose value equals `value`. -/
def bst_found : BTree → Int → Bool
  | .nil, _ => false
  | .node w l r, v =>
    if v = w then true
    else if v < w then bst_found l v
    else bst_found r v

/-- `BstReferenceTree(values)`: constructor adds each value in order to an
initially empty tree. -/
def bst_build (vs : List Int) : BTree :=
  vs.foldl bst_add .nil

/-- In-order traversal (left, self, right). -/
def inorder : BTree → List Int
  | .nil => []
  | .node v l r => inorder l ++ v :: inorder r

/-- All values in the subtree satisfy `p`. -/
def treeAll (p : Int → Prop) : BTree → Prop
  | .nil => True
  | .node v l r => p v ∧ treeAll p l ∧ treeAll p r

/-- The SearchTree ordering invariant: at every node all left-subtree values
are strictly less than the node's value and the node's value is less than or
equal to every right-subtree value. -/
def isBst : BTree → Prop
  | .nil => True
  | .node v l r =>
      treeAll (fun x => x < v) l ∧ treeAll (fun x => v ≤ x) r ∧ isBst l ∧ isBst r

theorem treeAll_bst_add {p : Int → Prop} {t : BTree} {v : Int}
    (ht : treeAll p t) (hv : p v) : treeAll p (bst_add t v) := by
  induction t with
  | nil => exact ⟨hv, trivial, trivial⟩
  | node w l r ihl ihr =>
    rcases ht with ⟨hw, hl, hr⟩
    rw [bst_add]
    split
    · exact ⟨hv, trivial, trivial⟩
    · split
      · exact ⟨hw, ihl hl, hr⟩
      · exact ⟨hw, hl, ihr hr⟩

theorem isBst_bst_add {t : BTree} (ht : isBst t) (v : Int) :
    isBst (bst_add t v) := by
  induction t with
  | nil => exact ⟨trivial, trivial, trivial, trivial⟩
  | node w l r ihl ihr =>
    rcases ht with ⟨hal, har, hl, hr⟩
    rw [bst_add]
    split
    · exact ⟨trivial, trivial, trivial, trivial⟩
    · split
      next hne hlt => exact ⟨treeAll_bst_add hal hlt, har, ihl hl, hr⟩
      next hne hge =>
        have hle : w ≤ v := by omega
        exact ⟨hal, treeAll_bst_add har hle, hl, ihr hr⟩

theorem mem_inorder_of_treeAll {p : Int → Prop} {t : BTree}
    (ht : treeAll p t) : ∀ x ∈ inorder t, p x := by
  induction t with
  | nil => simp [inorder]
  | node w l r ihl ihr =>
    rcases ht with ⟨hw, hl, hr⟩
    intro x hx
    rw [inorder, List.mem_append, List.mem_cons] at hx
    rcases hx with hx | rfl | hx
    · exact ihl hl x hx
    · exact hw
    · exact ihr hr x hx

theorem inorder_sorted_of_isBst {t : BTree} (ht : isBst t) :
    List.Sorted (· ≤ ·) (inorder t) := by
  induction t with
  | nil => simp [inorder]
  | node w l r ihl ihr =>
    rcases ht with ⟨hal, har, hl, hr⟩
    rw [inorder]
    refine List.pairwise_append.2 ⟨ihl hl, ?_, ?_⟩
    · exact List.pairwise_cons.2 ⟨fun b hb => mem_inorder_of_treeAll har b hb, ihr hr⟩
    · intro a ha b hb
      have h1 : a < w := mem_inorder_of_treeAll hal a ha
      rcases List.mem_cons.1 hb with rfl | hb
      · omega
      · have h2 : w ≤ b := mem_inorder_of_treeAll har b hb
        omega

theorem isBst_bst_build_from (vs : List Int) (t : BTree) (ht : isBst t) :
    isBst (vs.foldl bst_add t) := by
  induction vs generalizing t with
  | nil => exact ht
  | cons v vs ih => exact ih (bst_add t v) (isBst_bst_add ht v)

end PyTree

/-- Claim C7: after any finite sequence of `add` calls on an initially empty
SearchTree, the tree satisfies the BST ordering invariant (left-subtree
values strictly below each node's value, the node's value at most every
right-subtree value), and the in-order traversal is non-decreasing. -/
theorem c7_bst_inorder_sorted (vs : List Int) :
    PyTree.isBst (PyTree.bst_build vs) ∧
    List.Sorted (· ≤ ·) (PyTree.inorder (PyTree.bst_build vs)) := by
  have h := PyTree.isBst_bst_build_from vs .nil trivial
  exact ⟨h, PyTree.inorder_sorted_of_isBst h⟩

namespace PyHeap

/-- A `BinaryTreeNode` object from `tree.py`: its `value`, the ids of its
`_left`/`_right` children and of its `_parent`. -/
structure HNode where
  value : Int
  left : Option Nat
  right : Option Nat
  parent : Option Nat
deriving DecidableEq

/-- The object heap of a tree instance: an association list from node id to
node record, the id held by `self._root`, and the allocation counter (ids
strictly below `fresh` are in use). -/
structure Heap where
  nodes : List (Nat × HNode)
  root : Option Nat
  fresh : Nat
deriving DecidableEq

/-- A freshly constructed empty tree. -/
def emptyHeap : Heap := ⟨[], none, 0⟩

def findN (h : Heap) (i : Nat) : Option HNode :=
  h.nodes.lookup i

def updN (h : Heap) (i : Nat) (f : HNode → HNode) : Heap :=
  { h with nodes := h.nodes.map (fun p => if p.1 = i then (p.1, f p.2) else p) }

/-- `BinaryTreeNode(value)`: a fresh node with no children and no parent. -/
def alloc (h : Heap) (v : Int) : Heap × Nat :=
  let h1 : Heap :=
    { h with
      nodes := h.nodes ++ [(h.fresh, HNode.mk v none none none)]
      fresh := h.fresh + 1 }
  (h1, h.fresh)

/-- The `left` property setter of `BinaryTreeNode`: a non-`None` new child
first gets its `_parent` pointed at the assigning node, then `_left` is
assigned.  Assigning `None` detaches without touching the old child's parent
pointer. -/
def setLeft (h : Heap) (p : Nat) (c : Option Nat) : Heap :=
  let h1 := match c with
    | some n => updN h n (fun nd => { nd with parent := some p })
    | none => h
  updN h1 p (fun nd => { nd with left := c })

/-- The `right` property setter of `BinaryTreeNode`. -/
def setRight (h : Heap) (p : Nat) (c : Option Nat) : Heap :=
  let h1 := match c with
    | some n => updN h n (fun nd => { nd with parent := some p })
    | none => h
  updN h1 p (fun nd => { nd with right := c })

/-- The descent loop of `BstReferenceTree._find_node_and_parent`: starting at
the root with no parent, stop at a node whose value compares equal or at a
`None` link, descending left exactly when `value < node.value`; return
`(node_or_none, last_parent)`.  Fuel-indexed; the fuel supplied by `bstFind`
covers every run evaluated here. -/
def bstFindGo (h : Heap) (v : Int) :
    Nat → Option Nat → Option Nat → Option Nat × Option Nat
  | 0, parent, cur => (cur, parent)
  | _ + 1, parent, none => (none, parent)
  | fuel + 1, parent, some i =>
    match findN h i with
    | none => (none, parent)
    | some nd =>
      if nd.value = v then (some i, parent)
      else bstFindGo h v fuel (some i) (if v < nd.value then nd.left else nd.right)

def bstFind (h : Heap) (v : Int) : Option Nat × Option Nat :=
  bstFindGo h v h.fresh none h.root

/-- `BstReferenceTree.__contains__` (inherited shell around the overridden
`_find_node_and_parent`): the found node is not `None`. -/
def bstContains (h : Heap) (v : Int) : Bool :=
  (bstFind h v).1.isSome

/-- `BstReferenceTree.add(value)`: construct the fresh node, locate
`(node, parent)`, then either replace `self._root` (when `parent` is `None`)
or assign the fresh node to `parent.left` if `value < parent.value` else to
`parent.right`. -/
def bstAdd (h : Heap) (v : Int) : Heap :=
  let h1 := (alloc h v).1
  let nid := (alloc h v).2
  match (bstFind h1 v).2 with
  | none => { h1 with root := some nid }
  | some p =>
    match findN h1 p with
    | none => h1
    | some pnd =>
      if v < pnd.value then setLeft h1 p (some nid) else setRight h1 p (some nid)

/-- `BstReferenceTree(values)`: add each value in order into an empty tree. -/
def bstBuild (vs : List Int) : Heap :=
  vs.foldl bstAdd emptyHeap

/-- `BinaryTreeNodeABC.get_rightmost_descendant`, fuel-indexed. -/
def rightmostGo (h : Heap) : Nat → Nat → Nat
  | 0, i => i
  | fuel + 1, i =>
    match findN h i with
    | none => i
    | some nd =>
      match nd.right with
      | none => i
      | some r => rightmostGo h fuel r

def rightmostDesc (h : Heap) (i : Nat) : Nat :=
  rightmostGo h h.fresh i

/-- `BinaryReferenceTree._delete_leaf`: clear `self._root` when the leaf has
no parent, otherwise clear whichever of the parent's links is the leaf. -/
def deleteLeaf (h : Heap) (i : Nat) : Heap :=
  match findN h i with
  | none => h
  | some nd =>
    match nd.parent with
    | none => { h with root := none }
    | some p =>
      match findN h p with
      | none => h
      | some pnd =>
        if pnd.left = some i then setLeft h p none else setRight h p none

/-- `BstReferenceTree._delete_with_both_children`, translated exactly as
written: `replacement_node = node.left.get_rightmost_descendant();
replacement_node.parent.left = replacement_node.right;
node.value = replacement_node.value`. -/
def deleteWithBothChildren (h : Heap) (i : Nat) : Heap :=
  match findN h i with
  | none => h
  | some nd =>
    match nd.left with
    | none => h
    | some l =>
      let rm := rightmostDesc h l
      match findN h rm with
      | none => h
      | some rmnd =>
        match rmnd.parent with
        | none => h
        | some rp =>
          let h1 := setLeft h rp rmnd.right
          updN h1 i (fun x => { x with value := rmnd.value })

/-- `BstReferenceTree._delete_node_with_children`: both-children case
delegates to the above; otherwise splice the sole child into the removed
node's position (`self._root` when the node has no parent — the source does
not clear the spliced child's parent pointer on that path). -/
def deleteNodeWithChildren (h : Heap) (i : Nat) : Heap :=
  match findN h i with
  | none => h
  | some nd =>
    if nd.left.isSome && nd.right.isSome then deleteWithBothChildren h i
    else
      let repl := if nd.left.isSome then nd.left else nd.right
      match nd.parent with
      | none => { h with root := repl }
      | some p =>
        match findN h p with
        | none => h
        | some pnd =>
          if pnd.left = some i then setLeft h p repl else setRight h p repl

/-- `BstReferenceTree.discard(value)` on a present value (an absent value
raises `KeyError`; the claims only evaluate successful discards, an absent
value leaves the heap unchanged here). -/
def bstDiscard (h : Heap) (v : Int) : Heap :=
  match (bstFind h v).1 with
  | none => h
  | some i =>
    match findN h i with
    | none => h
    | some nd =>
      if nd.left = none ∧ nd.right = none then deleteLeaf h i
      else deleteNodeWithChildren h i

/-- `traverse_bfs` over the heap in queue form (cf. `PyTree.values_bfs`),
fuel-indexed; the fuel used by `treeLen` covers every run evaluated here. -/
def bfsGo (h : Heap) : Nat → List Nat → List Nat
  | 0, _ => []
  | _ + 1, [] => []
  | fuel + 1, i :: rest =>
    match findN h i with
    | none => bfsGo h fuel rest
    | some nd => i :: bfsGo h fuel (rest ++ nd.left.toList ++ nd.right.toList)

/-- `len(tree)`: the number of nodes yielded by the BFS iteration from the
root. -/
def treeLen (h : Heap) : Nat :=
  match h.root with
  | none => 0
  | some r => (bfsGo h (2 * h.nodes.length + 2) [r]).length

/-- The parent pointer of the node `self._root` refers to (`none` when the
tree is empty, `some p` with `p` the root node's `_parent` field otherwise). -/
def rootParent (h : Heap) : Option (Option Nat) :=
  match h.root with
  | none => none
  | some r => (findN h r).map HNode.parent

end PyHeap

/-- Claim C1: on the SearchTree built from `[5, 3, 4, 7]` (root 5, left 3
with right child 4, right 7), the value 5 occurs exactly once and
`discard(5)` succeeds and makes `5 in tree` false — but `len` stays 4 instead
of dropping to 3: `_delete_with_both_children` copies the in-order
predecessor's value (4) into the root and assigns
`replacement_node.parent.left = replacement_node.right`, while the
predecessor hangs off its parent's **right** link, so the predecessor node is
never detached and the tree now holds the value 4 twice. -/
theorem c1_bst_discard_keeps_length :
    PyHeap.treeLen (PyHeap.bstBuild [5, 3, 4, 7]) = 4 ∧
    PyHeap.bstContains (PyHeap.bstBuild [5, 3, 4, 7]) 5 = true ∧
    PyHeap.bstContains (PyHeap.bstDiscard (PyHeap.bstBuild [5, 3, 4, 7]) 5) 5 = false ∧
    PyHeap.treeLen (PyHeap.bstDiscard (PyHeap.bstBuild [5, 3, 4, 7]) 5) = 4 :=
  ⟨rfl, rfl, rfl, rfl⟩

/-- Claim C2, counterexample: on the SearchTree built from `[5, 3]`, adding
the duplicate value 5 replaces the root (the node `_find_node_and_parent`
stops at) with a fresh childless node, discarding its whole subtree: the
previously added 3 no longer satisfies `contains` and `len` collapses to 1.
The heap-level run and the value-level recursion agree. -/
theorem c2_duplicate_add_drops_entries :
    PyHeap.bstContains (PyHeap.bstBuild [5, 3]) 3 = true ∧
    PyHeap.bstContains (PyHeap.bstAdd (PyHeap.bstBuild [5, 3]) 5) 3 = false ∧
    PyHeap.treeLen (PyHeap.bstAdd (PyHeap.bstBuild [5, 3]) 5) = 1 ∧
    PyTree.bst_found (PyTree.bst_add (PyTree.bst_build [5, 3]) 5) 3 = false :=
  ⟨rfl, rfl, rfl, rfl⟩

/-- Claim C2 (amended): `add(v)` preserves all existing entries whenever the
`_find_node_and_parent` descent does not find a node with value equal to `v`
(in particular whenever `v` is not contained): every value satisfying
`contains` before the add still satisfies it after.  When the descent finds
an equal node, `add` instead replaces that node and its entire subtree with a
fresh childless node, so previously added values can stop being contained. -/
theorem c2_add_preserves_entries (t : PyTree.BTree) (v : Int)
    (hv : PyTree.bst_found t v = false) :
    ∀ w, PyTree.bst_found t w = true →
      PyTree.bst_found (PyTree.bst_add t v) w = true := by
  induction t with
  | nil =>
    intro w hw
    simp [PyTree.bst_found] at hw
  | node u l r ihl ihr =>
    intro w hw
    rw [PyTree.bst_found] at hv hw
    rw [PyTree.bst_add]
    have hvu : ¬ (v = u) := by
      intro hveq
      rw [if_pos hveq] at hv
      exact Bool.noConfusion hv
    rw [if_neg hvu] at hv ⊢
    by_cases hwu : w = u
    · split <;> (rw [PyTree.bst_found, if_pos hwu])
    · rw [if_neg hwu] at hw
      by_cases hvlt : v < u
      · rw [if_pos hvlt] at hv ⊢
        by_cases hwlt : w < u
        · rw [if_pos hwlt] at hw
          rw [PyTree.bst_found, if_neg hwu, if_pos hwlt]
          exact ihl hv w hw
        · rw [if_neg hwlt] at hw
          rw [PyTree.bst_found, if_neg hwu, if_neg hwlt]
          exact hw
      · rw [if_neg hvlt] at hv ⊢
        by_cases hwlt : w < u
        · rw [if_pos hwlt] at hw
          rw [PyTree.bst_found, if_neg hwu, if_pos hwlt]
          exact hw
        · rw [if_neg hwlt] at hw
          rw [PyTree.bst_found, if_neg hwu, if_neg hwlt]
          exact ihr hv w hw

/-- Witness for the amended claim C2: adding the fresh value 7 to the
SearchTree built from `[5, 3]` keeps 3 contained. -/
theorem c2_add_preserves_entries_witness :
    PyTree.bst_found (PyTree.bst_add (PyTree.bst_build [5, 3]) 7) 3 = true :=
  c2_add_preserves_entries (PyTree.bst_build [5, 3]) 7 (by decide) 3 (by decide)

/-- Claim C3: discarding the root of the SearchTree built from `[5, 3]` — a
root with exactly one child — splices the child into `self._root` without
clearing its parent pointer: afterwards the root node's `parent` still
references the removed node (id 0), so `is_root` is false for the tree's
root, violating the claimed link consistency. -/
theorem c3_bst_discard_stale_root_parent :
    (PyHeap.bstDiscard (PyHeap.bstBuild [5, 3]) 5).root = some 1 ∧
    PyHeap.rootParent (PyHeap.bstDiscard (PyHeap.bstBuild [5, 3]) 5) = some (some 0) :=
  ⟨rfl, rfl⟩
